import Mathlib

/-!
Shallow embedding of the iridium core (the two-pass assembler in
`src/asm.rs` and the bytecode VM in `src/vm.rs`), with theorems settling
the specification's claims about them.

Modelling conventions:
* bytes are `Nat` values < 256; `i32` register values are `Int` with the
  two's-complement range made explicit where the Rust code can overflow;
* Rust `Result` is `Except`; a reachable Rust panic (unchecked slice
  index, overflowing `/` or `%`) is an explicit `panic` outcome;
* strings are `List Char`; the Rust `HashMap` symbol table is an
  association list whose insert conses and whose lookup takes the most
  recent binding, matching the map's insert-overwrites behaviour.
-/

namespace Iridium

/-- The i32 minimum, `-2^31`. -/
def i32Min : Int := -(2 ^ 31)

/-- The i32 maximum, `2^31 - 1`. -/
def i32Max : Int := 2 ^ 31 - 1

/-- Rust `i32 as u32`: two's-complement reinterpretation. -/
def i32AsU32 (v : Int) : Nat := (v.emod (2 ^ 32)).toNat

/-- Rust `i32 as usize` on a 64-bit target: sign-extend then reinterpret. -/
def i32AsUsize (v : Int) : Nat := (v.emod (2 ^ 64)).toNat

/-- `checked_add(..).unwrap_or(0)` on i32 (`src/vm.rs`, ADD arm): the exact
sum when representable, otherwise 0. -/
def checkedAddOr0 (a b : Int) : Int :=
  if i32Min ≤ a + b ∧ a + b ≤ i32Max then a + b else 0

/-- `checked_sub(..).unwrap_or(0)` on i32 (`src/vm.rs`, SUB arm). -/
def checkedSubOr0 (a b : Int) : Int :=
  if i32Min ≤ a - b ∧ a - b ≤ i32Max then a - b else 0

/-- `checked_mul(..).unwrap_or(0)` on i32 (`src/vm.rs`, MUL arm). -/
def checkedMulOr0 (a b : Int) : Int :=
  if i32Min ≤ a * b ∧ a * b ≤ i32Max then a * b else 0

/-- `enum Opcode` (`src/vm.rs`). -/
inductive Opcode where
  | HLT
  | IGL
  | LOAD
  | ADD
  | SUB
  | MUL
  | DIV
  | JMP
  | JMPF
  deriving DecidableEq, Repr

/-- `impl From<u8> for Opcode` (`src/vm.rs`). -/
def Opcode.fromByte (v : Nat) : Opcode :=
  match v with
  | 0 => .HLT
  | 1 => .LOAD
  | 2 => .ADD
  | 3 => .SUB
  | 4 => .MUL
  | 5 => .DIV
  | 6 => .JMP
  | 7 => .JMPF
  | _ => .IGL

/-- `enum VMError` (`src/vm.rs`). -/
inductive VMError where
  | ProgramCounterOutOfBounds
  | DivisionByZero
  | RegisterOutOfBounds
  | InvalidOpcode
  deriving DecidableEq, Repr

/-- `struct VM` (`src/vm.rs`): `registers` is the `[i32; 32]` file as a
length-32 list, `program` the `Vec<u8>` byte buffer, `remainder` the `u32`. -/
structure VM where
  registers : List Int
  pc : Nat
  program : List Nat
  remainder : Nat
  deriving DecidableEq, Repr

/-- `VM::new` (`src/vm.rs`). -/
def VM.new : VM :=
  { registers := List.replicate 32 0, pc := 0, program := [], remainder := 0 }

/-- `VM::get_register` (`src/vm.rs`). -/
def VM.get_register (s : VM) (index : Nat) : Except VMError Int :=
  if index ≥ s.registers.length then .error .RegisterOutOfBounds
  else .ok (s.registers.getD index 0)

/-- `VM::reset` (`src/vm.rs`). -/
def VM.reset (s : VM) : VM :=
  { s with pc := 0, registers := List.replicate 32 0, remainder := 0 }

/-- `VM::add_program` (`src/vm.rs`): replace the program, then reset. -/
def VM.add_program (s : VM) (program : List Nat) : VM :=
  VM.reset { s with program := program }

/-- `VM::next_8_bits` (`src/vm.rs`): the byte at `pc` and the state with
`pc` advanced, or `ProgramCounterOutOfBounds` (the check precedes any
mutation, so the state is unchanged on the error path). -/
def VM.next_8_bits (s : VM) : Except VMError (Nat × VM) :=
  if s.pc ≥ s.program.length then .error .ProgramCounterOutOfBounds
  else .ok (s.program.getD s.pc 0, { s with pc := s.pc + 1 })

/-- `VM::next_16_bits` (`src/vm.rs`): big-endian 16-bit read,
`(program[pc] << 8) | program[pc+1]`. -/
def VM.next_16_bits (s : VM) : Except VMError (Nat × VM) :=
  if s.pc + 1 ≥ s.program.length then .error .ProgramCounterOutOfBounds
  else .ok (s.program.getD s.pc 0 * 256 + s.program.getD (s.pc + 1) 0,
            { s with pc := s.pc + 2 })

/-- `VM::get_three_registers` (`src/vm.rs`): three operand bytes, then one
bounds check against the register-file length. The error side carries the
state at the moment of the failing read, as the mutated `self` does. -/
def VM.get_three_registers (s : VM) :
    Except (VMError × VM) ((Nat × Nat × Nat) × VM) :=
  match s.next_8_bits with
  | .error e => .error (e, s)
  | .ok (reg1, s1) =>
    match s1.next_8_bits with
    | .error e => .error (e, s1)
    | .ok (reg2, s2) =>
      match s2.next_8_bits with
      | .error e => .error (e, s2)
      | .ok (reg3, s3) =>
        if reg1 ≥ s3.registers.length ∨ reg2 ≥ s3.registers.length ∨
            reg3 ≥ s3.registers.length then
          .error (.RegisterOutOfBounds, s3)
        else
          .ok ((reg1, reg2, reg3), s3)

/-- Outcome of one `execute_instruction` call: `Ok(bool)` with the updated
state, `Err(e)` with the state at the moment of the error, or a Rust panic
(reachable through an unchecked register index in the JMP/JMPF arms and
through overflowing `/` / `%` in the DIV arm). -/
inductive StepResult where
  | ok (cont : Bool) (s : VM)
  | fault (e : VMError) (s : VM)
  | panic (s : VM)
  deriving DecidableEq, Repr

/-- `VM::execute_instruction` (`src/vm.rs`). The opcode read and `pc += 1`
are `decode_opcode`, inlined here so the state flow is explicit. -/
def VM.execute_instruction (s : VM) : StepResult :=
  if s.pc ≥ s.program.length then .fault .ProgramCounterOutOfBounds s
  else
    let op := Opcode.fromByte (s.program.getD s.pc 0)
    let s0 : VM := { s with pc := s.pc + 1 }
    match op with
    | .HLT => .ok false s0
    | .LOAD =>
      match s0.next_8_bits with
      | .error e => .fault e s0
      | .ok (register, s1) =>
        match s1.next_16_bits with
        | .error e => .fault e s1
        | .ok (number, s2) =>
          if register ≥ s2.registers.length then .fault .RegisterOutOfBounds s2
          else .ok true { s2 with registers := s2.registers.set register (number : Int) }
    | .ADD =>
      match s0.get_three_registers with
      | .error (e, se) => .fault e se
      | .ok ((reg1, reg2, reg3), s1) =>
        let v := checkedAddOr0 (s1.registers.getD reg1 0) (s1.registers.getD reg2 0)
        .ok true { s1 with registers := s1.registers.set reg3 v }
    | .SUB =>
      match s0.get_three_registers with
      | .error (e, se) => .fault e se
      | .ok ((reg1, reg2, reg3), s1) =>
        let v := checkedSubOr0 (s1.registers.getD reg1 0) (s1.registers.getD reg2 0)
        .ok true { s1 with registers := s1.registers.set reg3 v }
    | .MUL =>
      match s0.get_three_registers with
      | .error (e, se) => .fault e se
      | .ok ((reg1, reg2, reg3), s1) =>
        let v := checkedMulOr0 (s1.registers.getD reg1 0) (s1.registers.getD reg2 0)
        .ok true { s1 with registers := s1.registers.set reg3 v }
    | .DIV =>
      match s0.get_three_registers with
      | .error (e, se) => .fault e se
      | .ok ((reg1, reg2, reg3), s1) =>
        if s1.registers.getD reg2 0 = 0 then .fault .DivisionByZero s1
        else if s1.registers.getD reg1 0 = i32Min ∧ s1.registers.getD reg2 0 = -1 then
          -- Rust: `i32::MIN / -1` overflows and panics
          .panic s1
        else
          let regs2 := s1.registers.set reg3
            (Int.tdiv (s1.registers.getD reg1 0) (s1.registers.getD reg2 0))
          -- Rust re-reads the register file for the remainder AFTER the
          -- quotient write: `self.registers[reg1] % self.registers[reg2]`
          if regs2.getD reg2 0 = 0 ∨
              (regs2.getD reg1 0 = i32Min ∧ regs2.getD reg2 0 = -1) then
            -- `%` panics on a zero divisor and on `i32::MIN % -1`
            .panic { s1 with registers := regs2 }
          else
            let rem := i32AsU32 (Int.tmod (regs2.getD reg1 0) (regs2.getD reg2 0))
            .ok true { s1 with registers := regs2, remainder := rem }
    | .IGL => .fault .InvalidOpcode s0
    | .JMP =>
      -- `self.registers[self.next_8_bits().unwrap_or(0) as usize]`:
      -- a missing operand byte silently becomes register index 0, and the
      -- register access itself is an unchecked slice index
      let r := match s0.next_8_bits with
        | .error _ => ((0 : Nat), s0)
        | .ok (b, s1) => (b, s1)
      if r.1 ≥ r.2.registers.length then .panic r.2
      else .ok true { r.2 with pc := i32AsUsize (r.2.registers.getD r.1 0) }
    | .JMPF =>
      let r := match s0.next_8_bits with
        | .error _ => ((0 : Nat), s0)
        | .ok (b, s1) => (b, s1)
      if r.1 ≥ r.2.registers.length then .panic r.2
      -- `self.pc += value as usize`, with release-mode wrapping at 2^64
      else .ok true { r.2 with pc := (r.2.pc + i32AsUsize (r.2.registers.getD r.1 0)) % 2 ^ 64 }

/-- `VM::run_once` (`src/vm.rs`): exactly `execute_instruction`. -/
def VM.run_once (s : VM) : StepResult :=
  s.execute_instruction

/-- Outcome of `VM::run`: `Ok(())`, an error, a panic, or fuel exhaustion
(the Rust loop can diverge, e.g. through a JMP cycle, so the embedding
bounds the number of iterations). -/
inductive RunResult where
  | ok (s : VM)
  | fault (e : VMError) (s : VM)
  | panic (s : VM)
  | outOfFuel (s : VM)
  deriving DecidableEq, Repr

/-- `VM::run` (`src/vm.rs`): `while pc < program.len()`, step; stop cleanly
when the step reports `false` (HLT) or the program is exhausted. -/
def VM.run : Nat → VM → RunResult
  | 0, s => .outOfFuel s
  | fuel + 1, s =>
    if s.pc ≥ s.program.length then .ok s
    else
      match s.execute_instruction with
      | .ok true s' => VM.run fuel s'
      | .ok false s' => .ok s'
      | .fault e s' => .fault e s'
      | .panic s' => .panic s'

/-! ## Assembler (`src/asm.rs`) -/

/-- ASCII whitespace; the assembly grammar (and Rust `trim` /
`split_whitespace` on it) only meets these characters. -/
def isWS (c : Char) : Bool := c = ' ' ∨ c = '\t' ∨ c = '\r' ∨ c = '\n'

/-- Rust `str::trim`: drop leading and trailing whitespace. -/
def trim (l : List Char) : List Char :=
  ((l.dropWhile isWS).reverse.dropWhile isWS).reverse

/-- Accumulator form of `split_whitespace`. -/
def splitWSAux : List Char → List Char → List (List Char)
  | [], acc => if acc = [] then [] else [acc.reverse]
  | c :: rest, acc =>
    if isWS c then
      if acc = [] then splitWSAux rest []
      else acc.reverse :: splitWSAux rest []
    else splitWSAux rest (c :: acc)

/-- Rust `str::split_whitespace`: the maximal non-whitespace runs. -/
def split_whitespace (l : List Char) : List (List Char) := splitWSAux l []

/-- Rust `line.split(';').next().unwrap_or("")`: the text before the first
`;` (comment stripping). -/
def stripComment (l : List Char) : List Char := l.takeWhile (fun c => c ≠ ';')

/-- ASCII uppercase of one character (Rust `to_uppercase` restricted to the
ASCII mnemonics the grammar uses). -/
def asciiUpper (c : Char) : Char :=
  if 'a' ≤ c ∧ c ≤ 'z' then Char.ofNat (c.toNat - 32) else c

/-- Uppercase a token. -/
def upper (l : List Char) : List Char := l.map asciiUpper

/-- A decimal digit. -/
def isDigitCh (c : Char) : Bool := '0' ≤ c ∧ c ≤ '9'

/-- Value of a decimal digit string. -/
def digitsVal (ds : List Char) : Nat :=
  ds.foldl (fun a c => 10 * a + (c.toNat - '0'.toNat)) 0

/-- Rust `str::parse::<uN>`: an optional leading `+`, then one or more
ASCII digits, the value within the type's range (`bound` is `2^16` for
`u16`, `2^64` for `usize`); anything else is a parse error. -/
def rustParseNat (bound : Nat) (t : List Char) : Option Nat :=
  let ds := match t with
    | '+' :: rest => rest
    | _ => t
  if ds ≠ [] ∧ ds.all isDigitCh then
    if digitsVal ds < bound then some (digitsVal ds) else none
  else none

/-- `enum AssemblerError` (`src/asm.rs`). Each variant carries the
offending token or line (the Rust variants embed it in a formatted
message). -/
inductive AssemblerError where
  | SyntaxError (s : List Char)
  | UnknownInstruction (s : List Char)
  | UnknownRegister (s : List Char)
  | LabelNotFound (s : List Char)
  deriving DecidableEq, Repr

/-- The symbol table, Rust `HashMap<String, usize>`: an association list
whose insert conses and whose lookup takes the most recent binding —
observably the map's insert-overwrites behaviour. -/
abbrev SymTable := List (List Char × Nat)

/-- `HashMap::insert` (overwriting): cons the new binding. -/
def insertSym (m : SymTable) (k : List Char) (v : Nat) : SymTable := (k, v) :: m

/-- `HashMap::get`: the most recent binding for the key. -/
def lookupSym (m : SymTable) (k : List Char) : Option Nat :=
  match m with
  | [] => none
  | (k', v) :: rest => if k' = k then some v else lookupSym rest k

/-- `struct Assembler` (`src/asm.rs`). -/
structure Assembler where
  symbols : SymTable
  deriving DecidableEq, Repr

/-- `Assembler::new` (`src/asm.rs`). -/
def Assembler.new : Assembler := { symbols := [] }

/-- `Assembler::parse_register` (`src/asm.rs`): a token starting with `r`
whose remainder parses as a `usize` below 32; anything else is
`UnknownRegister`. (`&self` is unused in the source, so it is omitted.) -/
def Assembler.parse_register (token : List Char) : Except AssemblerError Nat :=
  match token with
  | 'r' :: rest =>
    match rustParseNat (2 ^ 64) rest with
    | none => .error (.UnknownRegister token)
    | some register_num =>
      if register_num ≥ 32 then .error (.UnknownRegister token)
      else .ok register_num
  | _ => .error (.UnknownRegister token)

/-- `Assembler::parse_value` (`src/asm.rs`): a symbol-table hit is returned
as `*label_value as u16` (truncating to 16 bits), otherwise the token must
parse as a `u16`. -/
def parse_value (symbols : SymTable) (token : List Char) : Except AssemblerError Nat :=
  match lookupSym symbols token with
  | some label_value => .ok (label_value % 2 ^ 16)
  | none =>
    match rustParseNat (2 ^ 16) token with
    | some v => .ok v
    | none => .error (.SyntaxError token)

/-- `Assembler::estimate_instruction_size` (`src/asm.rs`): classify a line
by its first token's uppercase form. `tokens[0]` is total here because
pass 1 only feeds in non-blank trimmed lines. -/
def estimate_instruction_size (line : List Char) : Except AssemblerError Nat :=
  let tokens := split_whitespace line
  match upper (tokens.headD []) with
  | ['L', 'O', 'A', 'D'] => .ok 4
  | ['A', 'D', 'D'] => .ok 4
  | ['S', 'U', 'B'] => .ok 4
  | ['M', 'U', 'L'] => .ok 4
  | ['D', 'I', 'V'] => .ok 4
  | ['H', 'L', 'T'] => .ok 1
  | _ => .error (.UnknownInstruction (tokens.headD []))

/-- The shared ADD/SUB/MUL/DIV arm of `Assembler::compile`'s second pass:
arity check, three register operands, four emitted bytes. -/
def compile_arith (opcode : Nat) (line : List Char) (tokens : List (List Char)) :
    Except AssemblerError (List Nat) :=
  if tokens.length < 4 then .error (.SyntaxError line)
  else
    match Assembler.parse_register (tokens.getD 1 []) with
    | .error e => .error e
    | .ok reg1 =>
      match Assembler.parse_register (tokens.getD 2 []) with
      | .error e => .error e
      | .ok reg2 =>
        match Assembler.parse_register (tokens.getD 3 []) with
        | .error e => .error e
        | .ok reg3 => .ok [opcode, reg1, reg2, reg3]

/-- One instruction line of `Assembler::compile`'s second pass: the bytes
appended to the output for that line. -/
def compile_line (symbols : SymTable) (line : List Char) :
    Except AssemblerError (List Nat) :=
  let tokens := split_whitespace line
  match upper (tokens.headD []) with
  | ['L', 'O', 'A', 'D'] =>
    if tokens.length < 3 then .error (.SyntaxError line)
    else
      match Assembler.parse_register (tokens.getD 1 []) with
      | .error e => .error e
      | .ok register =>
        match parse_value symbols (tokens.getD 2 []) with
        | .error e => .error e
        | .ok value =>
          -- opcode, register, then `value.to_be_bytes()`
          .ok [1, register, value / 256, value % 256]
  | ['A', 'D', 'D'] => compile_arith 2 line tokens
  | ['S', 'U', 'B'] => compile_arith 3 line tokens
  | ['M', 'U', 'L'] => compile_arith 4 line tokens
  | ['D', 'I', 'V'] => compile_arith 5 line tokens
  | ['H', 'L', 'T'] => .ok [0]
  | _ => .error (.UnknownInstruction (tokens.getD 0 []))

/-- Pass 1 of `Assembler::compile`: strip comments and blanks, record each
label at the running byte offset, keep the instruction lines, and advance
the offset by the estimated size. Returns the symbol table as mutated so
far even on the error path (the Rust `self.symbols` keeps earlier inserts
when `?` propagates), the surviving lines and the final offset. -/
def pass1 : List (List Char) → Nat → SymTable →
    SymTable × Except AssemblerError (List (List Char) × Nat)
  | [], addr, syms => (syms, .ok ([], addr))
  | rawLine :: rest, addr, syms =>
    let line := trim (stripComment rawLine)
    if line = [] then pass1 rest addr syms
    else if line.getLast? = some ':' then
      pass1 rest addr (insertSym syms (trim line.dropLast) addr)
    else
      match estimate_instruction_size line with
      | .error e => (syms, .error e)
      | .ok sz =>
        match pass1 rest (addr + sz) syms with
        | (syms', .error e) => (syms', .error e)
        | (syms', .ok (ls, addr')) => (syms', .ok (line :: ls, addr'))

/-- Pass 2 of `Assembler::compile`: emit each kept line in order. -/
def pass2 (symbols : SymTable) : List (List Char) → Except AssemblerError (List Nat)
  | [] => .ok []
  | line :: rest =>
    match compile_line symbols line with
    | .error e => .error e
    | .ok bs =>
      match pass2 symbols rest with
      | .error e => .error e
      | .ok bc => .ok (bs ++ bc)

/-- The trailing `while bytecode.len() < 32 { push(0) }` of
`Assembler::compile`. -/
def padTo32 (bc : List Nat) : List Nat := bc ++ List.replicate (32 - bc.length) 0

/-- `Assembler::compile` on pre-split source lines (what remains after
Rust's `source.lines()`). -/
def compileLines (a : Assembler) (lines : List (List Char)) :
    Assembler × Except AssemblerError (List Nat) :=
  match pass1 lines 0 a.symbols with
  | (syms, .error e) => (⟨syms⟩, .error e)
  | (syms, .ok (ls, _)) =>
    match pass2 syms ls with
    | .error e => (⟨syms⟩, .error e)
    | .ok bc => (⟨syms⟩, .ok (padTo32 bc))

/-- Split on `'\n'` into parts (one more part than separators). -/
def splitOnNl : List Char → List (List Char)
  | [] => [[]]
  | c :: rest =>
    if c = '\n' then [] :: splitOnNl rest
    else
      match splitOnNl rest with
      | [] => [[c]]
      | l :: ls => (c :: l) :: ls

/-- Drop one trailing `'\r'` (so `\r\n` terminators behave as in Rust). -/
def stripCR (l : List Char) : List Char :=
  if l.getLast? = some '\r' then l.dropLast else l

/-- Rust `str::lines`: split at `\n` or `\r\n`, final terminator optional. -/
def rustLines (s : List Char) : List (List Char) :=
  let parts := splitOnNl s
  let parts := if parts.getLast? = some [] then parts.dropLast else parts
  parts.map stripCR

/-- `Assembler::compile` (`src/asm.rs`): both passes over the source text;
returns the assembler with its mutated symbol table alongside the result. -/
def Assembler.compile (a : Assembler) (source : List Char) :
    Assembler × Except AssemblerError (List Nat) :=
  compileLines a (rustLines source)

instance {ε α : Type} [DecidableEq ε] [DecidableEq α] : DecidableEq (Except ε α) := fun x y =>
  match x, y with
  | .ok a, .ok b =>
    if h : a = b then .isTrue (by rw [h]) else .isFalse (by simp [h])
  | .error e, .error f =>
    if h : e = f then .isTrue (by rw [h]) else .isFalse (by simp [h])
  | .ok _, .error _ => .isFalse (by simp)
  | .error _, .ok _ => .isFalse (by simp)

/-- The raw line defines label `name`: after comment stripping and
trimming it is nonempty, ends in `:` and its label text is `name`. -/
def definesLabel (name rawLine : List Char) : Bool :=
  let line := trim (stripComment rawLine)
  ¬ line = [] ∧ line.getLast? = some ':' ∧ trim line.dropLast = name

/-! ## Generic lemmas about the step function -/

theorem getD_set_self (l : List Int) (i : Nat) (v : Int) (h : i < l.length) :
    (l.set i v).getD i 0 = v := by
  simp [List.getD_eq_getElem?_getD, List.getElem?_set_self, h]

theorem getD_set_ne (l : List Int) (i j : Nat) (v : Int) (h : i ≠ j) :
    (l.set i v).getD j 0 = l.getD j 0 := by
  simp [List.getD_eq_getElem?_getD, List.getElem?_set_ne h]

theorem get_three_registers_ok (s : VM) (r1 r2 r3 : Nat)
    (hlen : s.pc + 3 ≤ s.program.length)
    (h1 : s.program.getD s.pc 0 = r1)
    (h2 : s.program.getD (s.pc + 1) 0 = r2)
    (h3 : s.program.getD (s.pc + 2) 0 = r3)
    (hb1 : r1 < s.registers.length) (hb2 : r2 < s.registers.length)
    (hb3 : r3 < s.registers.length) :
    s.get_three_registers = .ok ((r1, r2, r3), { s with pc := s.pc + 3 }) := by
  have e1 : ¬ s.pc ≥ s.program.length := by omega
  have e2 : ¬ s.pc + 1 ≥ s.program.length := by omega
  have e3 : ¬ s.pc + 2 ≥ s.program.length := by omega
  have hb : ¬ (r1 ≥ s.registers.length ∨ r2 ≥ s.registers.length ∨
      r3 ≥ s.registers.length) := by
    rintro (h | h | h) <;> omega
  simp only [VM.get_three_registers, VM.next_8_bits, e1, e2, e3, if_false, h1, h2, h3, hb]

theorem get_three_registers_reg_oob (s : VM) (r1 r2 r3 : Nat)
    (hlen : s.pc + 3 ≤ s.program.length)
    (h1 : s.program.getD s.pc 0 = r1)
    (h2 : s.program.getD (s.pc + 1) 0 = r2)
    (h3 : s.program.getD (s.pc + 2) 0 = r3)
    (hb : r1 ≥ s.registers.length ∨ r2 ≥ s.registers.length ∨
      r3 ≥ s.registers.length) :
    s.get_three_registers = .error (.RegisterOutOfBounds, { s with pc := s.pc + 3 }) := by
  have e1 : ¬ s.pc ≥ s.program.length := by omega
  have e2 : ¬ s.pc + 1 ≥ s.program.length := by omega
  have e3 : ¬ s.pc + 2 ≥ s.program.length := by omega
  simp only [VM.get_three_registers, VM.next_8_bits, e1, e2, e3, if_false, h1, h2, h3, hb,
    if_true, ite_true]

theorem get_three_registers_pc_oob (s : VM)
    (hlen : s.program.length < s.pc + 3) :
    ∃ s', s.get_three_registers = .error (.ProgramCounterOutOfBounds, s') := by
  by_cases c1 : s.pc ≥ s.program.length
  · exact ⟨s, by simp only [VM.get_three_registers, VM.next_8_bits, c1, if_true]⟩
  · by_cases c2 : s.pc + 1 ≥ s.program.length
    · refine ⟨{ s with pc := s.pc + 1 }, ?_⟩
      simp only [VM.get_three_registers, VM.next_8_bits, c1, c2, if_false, if_true]
    · have c3 : s.pc + 2 ≥ s.program.length := by omega
      refine ⟨{ s with pc := s.pc + 2 }, ?_⟩
      simp only [VM.get_three_registers, VM.next_8_bits, c1, c2, c3, if_false, if_true]

theorem execute_add_ok (s : VM) (r1 r2 r3 : Nat)
    (hlen : s.pc + 4 ≤ s.program.length)
    (hop : s.program.getD s.pc 0 = 2)
    (h1 : s.program.getD (s.pc + 1) 0 = r1)
    (h2 : s.program.getD (s.pc + 2) 0 = r2)
    (h3 : s.program.getD (s.pc + 3) 0 = r3)
    (hb1 : r1 < s.registers.length) (hb2 : r2 < s.registers.length)
    (hb3 : r3 < s.registers.length) :
    s.execute_instruction = .ok true { s with pc := s.pc + 4, registers := s.registers.set r3 (checkedAddOr0 (s.registers.getD r1 0) (s.registers.getD r2 0)) } := by
  have e0 : ¬ s.pc ≥ s.program.length := by omega
  have h3r := get_three_registers_ok { s with pc := s.pc + 1 } r1 r2 r3
    (show s.pc + 1 + 3 ≤ s.program.length by omega) h1 h2 h3 hb1 hb2 hb3
  simp only [VM.execute_instruction, e0, if_false, hop, Opcode.fromByte, h3r]

theorem execute_sub_ok (s : VM) (r1 r2 r3 : Nat)
    (hlen : s.pc + 4 ≤ s.program.length)
    (hop : s.program.getD s.pc 0 = 3)
    (h1 : s.program.getD (s.pc + 1) 0 = r1)
    (h2 : s.program.getD (s.pc + 2) 0 = r2)
    (h3 : s.program.getD (s.pc + 3) 0 = r3)
    (hb1 : r1 < s.registers.length) (hb2 : r2 < s.registers.length)
    (hb3 : r3 < s.registers.length) :
    s.execute_instruction = .ok true { s with pc := s.pc + 4, registers := s.registers.set r3 (checkedSubOr0 (s.registers.getD r1 0) (s.registers.getD r2 0)) } := by
  have e0 : ¬ s.pc ≥ s.program.length := by omega
  have h3r := get_three_registers_ok { s with pc := s.pc + 1 } r1 r2 r3
    (show s.pc + 1 + 3 ≤ s.program.length by omega) h1 h2 h3 hb1 hb2 hb3
  simp only [VM.execute_instruction, e0, if_false, hop, Opcode.fromByte, h3r]

theorem execute_mul_ok (s : VM) (r1 r2 r3 : Nat)
    (hlen : s.pc + 4 ≤ s.program.length)
    (hop : s.program.getD s.pc 0 = 4)
    (h1 : s.program.getD (s.pc + 1) 0 = r1)
    (h2 : s.program.getD (s.pc + 2) 0 = r2)
    (h3 : s.program.getD (s.pc + 3) 0 = r3)
    (hb1 : r1 < s.registers.length) (hb2 : r2 < s.registers.length)
    (hb3 : r3 < s.registers.length) :
    s.execute_instruction = .ok true { s with pc := s.pc + 4, registers := s.registers.set r3 (checkedMulOr0 (s.registers.getD r1 0) (s.registers.getD r2 0)) } := by
  have e0 : ¬ s.pc ≥ s.program.length := by omega
  have h3r := get_three_registers_ok { s with pc := s.pc + 1 } r1 r2 r3
    (show s.pc + 1 + 3 ≤ s.program.length by omega) h1 h2 h3 hb1 hb2 hb3
  simp only [VM.execute_instruction, e0, if_false, hop, Opcode.fromByte, h3r]

theorem execute_div_zero (s : VM) (r1 r2 r3 : Nat)
    (hlen : s.pc + 4 ≤ s.program.length)
    (hop : s.program.getD s.pc 0 = 5)
    (h1 : s.program.getD (s.pc + 1) 0 = r1)
    (h2 : s.program.getD (s.pc + 2) 0 = r2)
    (h3 : s.program.getD (s.pc + 3) 0 = r3)
    (hb1 : r1 < s.registers.length) (hb2 : r2 < s.registers.length)
    (hb3 : r3 < s.registers.length)
    (hd : s.registers.getD r2 0 = 0) :
    s.execute_instruction = .fault .DivisionByZero { s with pc := s.pc + 4 } := by
  have e0 : ¬ s.pc ≥ s.program.length := by omega
  have h3r := get_three_registers_ok { s with pc := s.pc + 1 } r1 r2 r3
    (show s.pc + 1 + 3 ≤ s.program.length by omega) h1 h2 h3 hb1 hb2 hb3
  simp only [VM.execute_instruction, e0, if_false, hop, Opcode.fromByte, h3r, hd, if_true,
    ite_true]

theorem execute_div_ok (s : VM) (r1 r2 r3 : Nat) (a d : Int)
    (hlen : s.pc + 4 ≤ s.program.length)
    (hop : s.program.getD s.pc 0 = 5)
    (h1 : s.program.getD (s.pc + 1) 0 = r1)
    (h2 : s.program.getD (s.pc + 2) 0 = r2)
    (h3 : s.program.getD (s.pc + 3) 0 = r3)
    (hb1 : r1 < s.registers.length) (hb2 : r2 < s.registers.length)
    (hb3 : r3 < s.registers.length)
    (ha : s.registers.getD r1 0 = a) (hd : s.registers.getD r2 0 = d)
    (hd0 : d ≠ 0) (hov : ¬ (a = i32Min ∧ d = -1))
    (h31 : r3 ≠ r1) (h32 : r3 ≠ r2) :
    s.execute_instruction = .ok true { s with pc := s.pc + 4, registers := s.registers.set r3 (Int.tdiv a d), remainder := i32AsU32 (Int.tmod a d) } := by
  have e0 : ¬ s.pc ≥ s.program.length := by omega
  have h3r := get_three_registers_ok { s with pc := s.pc + 1 } r1 r2 r3
    (show s.pc + 1 + 3 ≤ s.program.length by omega) h1 h2 h3 hb1 hb2 hb3
  have ga : (s.registers.set r3 (Int.tdiv a d)).getD r1 0 = a := by
    rw [getD_set_ne _ _ _ _ h31, ha]
  have gd : (s.registers.set r3 (Int.tdiv a d)).getD r2 0 = d := by
    rw [getD_set_ne _ _ _ _ h32, hd]
  simp only [VM.execute_instruction, e0, if_false, hop, Opcode.fromByte, h3r, ha, hd,
    hd0, hov, if_false, ite_false, ga, gd]
  simp [hd0, hov]

theorem execute_load_missing (s : VM)
    (hop : s.program.getD s.pc 0 = 1)
    (hpc : s.pc < s.program.length) (hlen : s.program.length < s.pc + 4) :
    ∃ s', s.execute_instruction = .fault .ProgramCounterOutOfBounds s' := by
  have e0 : ¬ s.pc ≥ s.program.length := by omega
  by_cases c1 : s.pc + 1 ≥ s.program.length
  · refine ⟨{ s with pc := s.pc + 1 }, ?_⟩
    simp only [VM.execute_instruction, e0, if_false, hop, Opcode.fromByte, VM.next_8_bits,
      c1, if_true, ite_true]
  · have c2 : s.pc + 2 + 1 ≥ s.program.length := by omega
    refine ⟨{ s with pc := s.pc + 2 }, ?_⟩
    simp only [VM.execute_instruction, e0, if_false, hop, Opcode.fromByte, VM.next_8_bits,
      VM.next_16_bits, c1, c2, if_false, if_true, ite_true]

theorem execute_arith_missing (s : VM) (b : Nat)
    (hb : b = 2 ∨ b = 3 ∨ b = 4 ∨ b = 5)
    (hop : s.program.getD s.pc 0 = b)
    (hpc : s.pc < s.program.length) (hlen : s.program.length < s.pc + 4) :
    ∃ s', s.execute_instruction = .fault .ProgramCounterOutOfBounds s' := by
  have e0 : ¬ s.pc ≥ s.program.length := by omega
  obtain ⟨s', hs'⟩ := get_three_registers_pc_oob { s with pc := s.pc + 1 }
    (show s.program.length < s.pc + 1 + 3 by omega)
  rcases hb with rfl | rfl | rfl | rfl <;>
    exact ⟨s', by simp only [VM.execute_instruction, e0, if_false, hop, Opcode.fromByte, hs']⟩

theorem execute_jmp_missing (s : VM)
    (hop : s.program.getD s.pc 0 = 6)
    (hpc : s.pc < s.program.length) (hlen : s.program.length < s.pc + 2)
    (hreg : s.registers.length = 32) :
    s.execute_instruction = .ok true { s with pc := i32AsUsize (s.registers.getD 0 0) } := by
  have e0 : ¬ s.pc ≥ s.program.length := by omega
  have c1 : s.pc + 1 ≥ s.program.length := by omega
  have hz : ¬ (0 ≥ s.registers.length) := by omega
  simp only [VM.execute_instruction, e0, if_false, hop, Opcode.fromByte, VM.next_8_bits,
    c1, if_true, ite_true, hz, ite_false]

theorem execute_jmpf_missing (s : VM)
    (hop : s.program.getD s.pc 0 = 7)
    (hpc : s.pc < s.program.length) (hlen : s.program.length < s.pc + 2)
    (hreg : s.registers.length = 32) :
    s.execute_instruction = .ok true { s with pc := (s.pc + 1 + i32AsUsize (s.registers.getD 0 0)) % 2 ^ 64 } := by
  have e0 : ¬ s.pc ≥ s.program.length := by omega
  have c1 : s.pc + 1 ≥ s.program.length := by omega
  have hz : ¬ (0 ≥ s.registers.length) := by omega
  simp only [VM.execute_instruction, e0, if_false, hop, Opcode.fromByte, VM.next_8_bits,
    c1, if_true, ite_true, hz, ite_false]

/-! ## Claim theorems: VM -/

/-- C1 counterexample: the program `[6]` is a JMP whose operand byte lies
past the end of the buffer. Executing it does NOT return
`ProgramCounterOutOfBounds`: the `unwrap_or(0)` substitutes register index
0 and the step succeeds, setting `pc` to register 0's value (0). -/
theorem jmp_missing_operand_counterexample :
    (VM.new.add_program [6]).run_once =
      .ok true { registers := List.replicate 32 0, pc := 0, program := [6], remainder := 0 } := by
  decide

/-- C1 (amended): when executing one instruction requires operand bytes at
or past the end of the program buffer, the step returns
`ProgramCounterOutOfBounds` for LOAD, ADD, SUB, MUL and DIV; for JMP and
JMPF the missing operand byte is silently replaced by register index 0
(`next_8_bits().unwrap_or(0)`) and the step succeeds, jumping through
register 0. -/
theorem missing_operand_bytes_behaviour :
    (∀ (s : VM) (b : Nat), (b = 1 ∨ b = 2 ∨ b = 3 ∨ b = 4 ∨ b = 5) →
      s.program.getD s.pc 0 = b → s.pc < s.program.length →
      s.program.length < s.pc + 4 →
      ∃ s', s.execute_instruction = .fault .ProgramCounterOutOfBounds s') ∧
    (∀ s : VM, s.program.getD s.pc 0 = 6 → s.pc < s.program.length →
      s.program.length < s.pc + 2 → s.registers.length = 32 →
      s.execute_instruction = .ok true { s with pc := i32AsUsize (s.registers.getD 0 0) }) ∧
    (∀ s : VM, s.program.getD s.pc 0 = 7 → s.pc < s.program.length →
      s.program.length < s.pc + 2 → s.registers.length = 32 →
      s.execute_instruction = .ok true { s with pc := (s.pc + 1 + i32AsUsize (s.registers.getD 0 0)) % 2 ^ 64 }) := by
  refine ⟨?_, execute_jmp_missing, execute_jmpf_missing⟩
  intro s b hb hop hpc hlen
  rcases hb with rfl | hb
  · exact execute_load_missing s hop hpc hlen
  · exact execute_arith_missing s b hb hop hpc hlen

/-- C1 witness: the amended theorem at concrete one-byte programs `[2]`
(ADD, faults) and `[6]` (JMP, substitutes register 0). -/
theorem missing_operand_bytes_behaviour_witness :
    (∃ s', (VM.new.add_program [2]).execute_instruction =
      .fault .ProgramCounterOutOfBounds s') ∧
    (VM.new.add_program [6]).execute_instruction =
      .ok true { VM.new.add_program [6] with
        pc := i32AsUsize ((VM.new.add_program [6]).registers.getD 0 0) } :=
  ⟨missing_operand_bytes_behaviour.1 (VM.new.add_program [2]) 2 (by decide)
      (by decide) (by decide) (by decide),
   missing_operand_bytes_behaviour.2.1 (VM.new.add_program [6]) (by decide)
      (by decide) (by decide) (by decide)⟩

/-- C2 (code bug): the program `[6, 32]` is a JMP whose operand byte is 32.
The claim (and the spec) say this returns `RegisterOutOfBounds`; the code
instead performs the unchecked index `self.registers[32]` and panics. -/
theorem jmp_oob_register_panics :
    (VM.new.add_program [6, 32]).run_once =
      .panic { registers := List.replicate 32 0, pc := 2, program := [6, 32], remainder := 0 } := by
  decide

/-- C3 counterexample: on a freshly constructed VM (empty program, so the
program counter is at the end of the buffer) `run_once` returns
`Err(ProgramCounterOutOfBounds)`, not `Ok(false)`. -/
theorem run_once_exhausted_counterexample :
    VM.new.run_once = .fault .ProgramCounterOutOfBounds VM.new := by decide

/-- C3 (amended): with the program counter at or past the end of the
buffer, `run_once` fails with `ProgramCounterOutOfBounds`; it is `run`
(which checks `pc < program.len()` before stepping) that treats exhaustion
as a clean stop, and `run_once` returns `Ok(false)` only on an executed
HLT. -/
theorem run_once_exhausted_behaviour :
    (∀ s : VM, s.program.length ≤ s.pc →
      s.run_once = .fault .ProgramCounterOutOfBounds s) ∧
    (∀ (s : VM) (fuel : Nat), s.program.length ≤ s.pc →
      VM.run (fuel + 1) s = .ok s) := by
  constructor
  · intro s h
    rw [VM.run_once, VM.execute_instruction, if_pos (show s.pc ≥ s.program.length by omega)]
  · intro s fuel h
    rw [VM.run, if_pos (show s.pc ≥ s.program.length by omega)]

/-- C3 witness: the amended theorem at the fresh VM. -/
theorem run_once_exhausted_behaviour_witness :
    VM.new.run_once = .fault .ProgramCounterOutOfBounds VM.new ∧
    VM.run 1 VM.new = .ok VM.new :=
  ⟨run_once_exhausted_behaviour.1 VM.new (by decide),
   run_once_exhausted_behaviour.2 VM.new 0 (by decide)⟩

/-- C5 counterexample: DIV with the destination register aliasing the
dividend register. State: r0 = 5, r1 = 3, program `DIV r0 r1 r0`
(bytes `[5,0,1,0]`). The quotient 1 is written to r0 first, and the
remainder is then computed from the OVERWRITTEN register file as
`1 % 3 = 1` — but the remainder of the division 5/3 is 2. -/
theorem div_aliased_remainder_counterexample :
    VM.execute_instruction { registers := ((List.replicate 32 (0 : Int)).set 0 5).set 1 3, pc := 0, program := [5, 0, 1, 0], remainder := 0 } =
      .ok true { registers := (((List.replicate 32 (0 : Int)).set 0 5).set 1 3).set 0 1, pc := 4, program := [5, 0, 1, 0], remainder := 1 } ∧
    Int.tmod 5 3 ≠ 1 := by
  constructor
  · decide
  · decide

/-- C5 (amended): executing DIV with in-range, readable operand bytes and a
zero-valued divisor register fails with `DivisionByZero` leaving every
register and the remainder state unchanged (only `pc` has advanced). With a
nonzero divisor, the quotient is stored in the destination register and the
remainder of the division in the VM-wide remainder state, PROVIDED the
destination register is distinct from both source registers (otherwise the
remainder is computed from the already-overwritten register file) and the
division does not overflow (`i32::MIN / -1` panics). -/
theorem div_behaviour :
    (∀ (s : VM) (r1 r2 r3 : Nat),
      s.pc + 4 ≤ s.program.length →
      s.program.getD s.pc 0 = 5 →
      s.program.getD (s.pc + 1) 0 = r1 → s.program.getD (s.pc + 2) 0 = r2 →
      s.program.getD (s.pc + 3) 0 = r3 →
      r1 < s.registers.length → r2 < s.registers.length → r3 < s.registers.length →
      s.registers.getD r2 0 = 0 →
      s.execute_instruction = .fault .DivisionByZero { s with pc := s.pc + 4 }) ∧
    (∀ (s : VM) (r1 r2 r3 : Nat) (a d : Int),
      s.pc + 4 ≤ s.program.length →
      s.program.getD s.pc 0 = 5 →
      s.program.getD (s.pc + 1) 0 = r1 → s.program.getD (s.pc + 2) 0 = r2 →
      s.program.getD (s.pc + 3) 0 = r3 →
      r1 < s.registers.length → r2 < s.registers.length → r3 < s.registers.length →
      s.registers.getD r1 0 = a → s.registers.getD r2 0 = d →
      d ≠ 0 → ¬(a = i32Min ∧ d = -1) → r3 ≠ r1 → r3 ≠ r2 →
      s.execute_instruction = .ok true { s with pc := s.pc + 4, registers := s.registers.set r3 (Int.tdiv a d), remainder := i32AsU32 (Int.tmod a d) }) := by
  constructor
  · intro s r1 r2 r3 hlen hop h1 h2 h3 hb1 hb2 hb3 hd
    exact execute_div_zero s r1 r2 r3 hlen hop h1 h2 h3 hb1 hb2 hb3 hd
  · intro s r1 r2 r3 a d hlen hop h1 h2 h3 hb1 hb2 hb3 ha hd hd0 hov h31 h32
    exact execute_div_ok s r1 r2 r3 a d hlen hop h1 h2 h3 hb1 hb2 hb3 ha hd hd0 hov h31 h32

/-- C5 witness: both parts of the amended theorem at concrete states —
`DIV r0 r1 r2` with r1 = 0 faults, and with r0 = 7, r1 = 2 stores
quotient 3 and remainder 1. -/
theorem div_behaviour_witness :
    VM.execute_instruction { registers := List.replicate 32 0, pc := 0, program := [5, 0, 1, 2], remainder := 0 } =
      .fault .DivisionByZero { registers := List.replicate 32 0, pc := 4, program := [5, 0, 1, 2], remainder := 0 } ∧
    VM.execute_instruction { registers := ((List.replicate 32 (0 : Int)).set 0 7).set 1 2, pc := 0, program := [5, 0, 1, 2], remainder := 9 } =
      .ok true { registers := (((List.replicate 32 (0 : Int)).set 0 7).set 1 2).set 2 (Int.tdiv 7 2), pc := 4, program := [5, 0, 1, 2], remainder := i32AsU32 (Int.tmod 7 2) } :=
  ⟨div_behaviour.1 { registers := List.replicate 32 0, pc := 0, program := [5, 0, 1, 2], remainder := 0 } 0 1 2 (by decide) (by decide)
      (by decide) (by decide) (by decide) (by decide) (by decide) (by decide) (by decide),
   div_behaviour.2 { registers := ((List.replicate 32 (0 : Int)).set 0 7).set 1 2, pc := 0, program := [5, 0, 1, 2], remainder := 9 } 0 1 2 7 2 (by decide) (by decide)
      (by decide) (by decide) (by decide) (by decide) (by decide) (by decide) (by decide)
      (by decide) (by decide) (by decide) (by decide) (by decide)⟩

/-- C6: when the exact sum (ADD), difference (SUB) or product (MUL) of the
two in-range i32 source register values is not representable in i32, the
instruction stores 0 in the destination register and succeeds — no error,
no panic, no wrapped value. -/
theorem arith_overflow_clamps_to_zero :
    (∀ (s : VM) (r1 r2 r3 : Nat) (a b : Int),
      s.pc + 4 ≤ s.program.length →
      s.program.getD s.pc 0 = 2 →
      s.program.getD (s.pc + 1) 0 = r1 → s.program.getD (s.pc + 2) 0 = r2 →
      s.program.getD (s.pc + 3) 0 = r3 →
      r1 < s.registers.length → r2 < s.registers.length → r3 < s.registers.length →
      s.registers.getD r1 0 = a → s.registers.getD r2 0 = b →
      (a + b < i32Min ∨ i32Max < a + b) →
      s.execute_instruction = .ok true { s with pc := s.pc + 4, registers := s.registers.set r3 0 }) ∧
    (∀ (s : VM) (r1 r2 r3 : Nat) (a b : Int),
      s.pc + 4 ≤ s.program.length →
      s.program.getD s.pc 0 = 3 →
      s.program.getD (s.pc + 1) 0 = r1 → s.program.getD (s.pc + 2) 0 = r2 →
      s.program.getD (s.pc + 3) 0 = r3 →
      r1 < s.registers.length → r2 < s.registers.length → r3 < s.registers.length →
      s.registers.getD r1 0 = a → s.registers.getD r2 0 = b →
      (a - b < i32Min ∨ i32Max < a - b) →
      s.execute_instruction = .ok true { s with pc := s.pc + 4, registers := s.registers.set r3 0 }) ∧
    (∀ (s : VM) (r1 r2 r3 : Nat) (a b : Int),
      s.pc + 4 ≤ s.program.length →
      s.program.getD s.pc 0 = 4 →
      s.program.getD (s.pc + 1) 0 = r1 → s.program.getD (s.pc + 2) 0 = r2 →
      s.program.getD (s.pc + 3) 0 = r3 →
      r1 < s.registers.length → r2 < s.registers.length → r3 < s.registers.length →
      s.registers.getD r1 0 = a → s.registers.getD r2 0 = b →
      (a * b < i32Min ∨ i32Max < a * b) →
      s.execute_instruction = .ok true { s with pc := s.pc + 4, registers := s.registers.set r3 0 }) := by
  refine ⟨?_, ?_, ?_⟩ <;>
    intro s r1 r2 r3 a b hlen hop h1 h2 h3 hb1 hb2 hb3 hra hrb hover
  · rw [execute_add_ok s r1 r2 r3 hlen hop h1 h2 h3 hb1 hb2 hb3, hra, hrb,
      checkedAddOr0, if_neg]
    simp only [i32Min, i32Max] at hover ⊢
    omega
  · rw [execute_sub_ok s r1 r2 r3 hlen hop h1 h2 h3 hb1 hb2 hb3, hra, hrb,
      checkedSubOr0, if_neg]
    simp only [i32Min, i32Max] at hover ⊢
    omega
  · rw [execute_mul_ok s r1 r2 r3 hlen hop h1 h2 h3 hb1 hb2 hb3, hra, hrb,
      checkedMulOr0, if_neg]
    simp only [i32Min, i32Max] at hover ⊢
    generalize a * b = p at hover ⊢
    omega

/-- C6 witness: ADD of `i32::MAX + 1`, SUB of `i32::MIN - 1`, MUL of
`2^20 * 2^20`, each storing 0. -/
theorem arith_overflow_clamps_to_zero_witness :
    VM.execute_instruction { registers := ((List.replicate 32 (0 : Int)).set 0 (2 ^ 31 - 1)).set 1 1, pc := 0, program := [2, 0, 1, 2], remainder := 0 } =
      .ok true { registers := (((List.replicate 32 (0 : Int)).set 0 (2 ^ 31 - 1)).set 1 1).set 2 0, pc := 4, program := [2, 0, 1, 2], remainder := 0 } ∧
    VM.execute_instruction { registers := ((List.replicate 32 (0 : Int)).set 0 (-(2 ^ 31))).set 1 1, pc := 0, program := [3, 0, 1, 2], remainder := 0 } =
      .ok true { registers := (((List.replicate 32 (0 : Int)).set 0 (-(2 ^ 31))).set 1 1).set 2 0, pc := 4, program := [3, 0, 1, 2], remainder := 0 } ∧
    VM.execute_instruction { registers := ((List.replicate 32 (0 : Int)).set 0 (2 ^ 20)).set 1 (2 ^ 20), pc := 0, program := [4, 0, 1, 2], remainder := 0 } =
      .ok true { registers := (((List.replicate 32 (0 : Int)).set 0 (2 ^ 20)).set 1 (2 ^ 20)).set 2 0, pc := 4, program := [4, 0, 1, 2], remainder := 0 } :=
  ⟨arith_overflow_clamps_to_zero.1 _ 0 1 2 (2 ^ 31 - 1) 1 (by decide) (by decide)
      (by decide) (by decide) (by decide) (by decide) (by decide) (by decide)
      (by decide) (by decide) (by decide),
   arith_overflow_clamps_to_zero.2.1 _ 0 1 2 (-(2 ^ 31)) 1 (by decide) (by decide)
      (by decide) (by decide) (by decide) (by decide) (by decide) (by decide)
      (by decide) (by decide) (by decide),
   arith_overflow_clamps_to_zero.2.2 _ 0 1 2 (2 ^ 20) (2 ^ 20) (by decide) (by decide)
      (by decide) (by decide) (by decide) (by decide) (by decide) (by decide)
      (by decide) (by decide) (by decide)⟩

/-! ## Claim theorems: assembler and round trip -/

/-- C4: compiling the source text `LOAD r0 500` with a fresh Assembler
succeeds, and loading the resulting bytecode into a fresh VM with
`add_program` and calling `run` terminates with `Ok`, after which
`get_register(0)` returns `Ok(500)`. -/
theorem load_r0_500_roundtrip :
    ∃ (bc : List Nat) (n : Nat) (s' : VM),
      (Assembler.new.compile ("LOAD r0 500".toList)).2 = .ok bc ∧
      VM.run n (VM.new.add_program bc) = .ok s' ∧
      s'.get_register 0 = .ok 500 := by
  refine ⟨[1, 0, 1, 244] ++ List.replicate 28 0, 2, { registers := (List.replicate 32 (0 : Int)).set 0 500, pc := 5, program := [1, 0, 1, 244] ++ List.replicate 28 0, remainder := 0 }, ?_, ?_, ?_⟩ <;> decide

/-- On a nonempty all-digit remainder, Rust's integer parse returns its
decimal value when it is within range, and fails otherwise. -/
theorem rustParseNat_digits (bound : Nat) (ds : List Char) (hne : ds ≠ [])
    (hd : ds.all isDigitCh) :
    rustParseNat bound ds = if digitsVal ds < bound then some (digitsVal ds) else none := by
  unfold rustParseNat
  split
  · simp only [List.all_cons, show isDigitCh '+' = false from by decide,
      Bool.false_and] at hd
    exact absurd hd (by decide)
  · rw [if_pos ⟨hne, hd⟩]

/-- C7: `parse_register` accepts `r` followed by the decimal digits of an
integer N < 32 and yields N (the digit-string form also covers leading
zeros); for `r` followed by decimal digits of value ≥ 32 (including values
that overflow `usize`), and for any token not starting with `r`, it fails
with `UnknownRegister`. -/
theorem parse_register_spec :
    (∀ ds : List Char, ds ≠ [] → ds.all isDigitCh → digitsVal ds < 32 →
      Assembler.parse_register ('r' :: ds) = .ok (digitsVal ds)) ∧
    (∀ ds : List Char, ds ≠ [] → ds.all isDigitCh → 32 ≤ digitsVal ds →
      Assembler.parse_register ('r' :: ds) = .error (.UnknownRegister ('r' :: ds))) ∧
    (∀ t : List Char, t.head? ≠ some 'r' →
      Assembler.parse_register t = .error (.UnknownRegister t)) := by
  refine ⟨?_, ?_, ?_⟩
  · intro ds hne hd hlt
    simp only [Assembler.parse_register]
    rw [rustParseNat_digits _ ds hne hd, if_pos (show digitsVal ds < 2 ^ 64 by omega)]
    simp only []
    rw [if_neg (by omega)]
  · intro ds hne hd hge
    simp only [Assembler.parse_register]
    rw [rustParseNat_digits _ ds hne hd]
    by_cases hbig : digitsVal ds < 2 ^ 64
    · rw [if_pos hbig]
      simp only []
      rw [if_pos (by omega)]
    · rw [if_neg hbig]
  · intro t ht
    simp only [Assembler.parse_register]
    split
    · exact absurd rfl ht
    · rfl

/-- C7 witness: `r7` is accepted as 7, `r32` and `x5` are rejected with
`UnknownRegister`. -/
theorem parse_register_spec_witness :
    Assembler.parse_register ('r' :: ['7']) = .ok (digitsVal ['7']) ∧
    Assembler.parse_register ('r' :: ['3', '2']) =
      .error (.UnknownRegister ('r' :: ['3', '2'])) ∧
    Assembler.parse_register ['x', '5'] = .error (.UnknownRegister ['x', '5']) :=
  ⟨parse_register_spec.1 ['7'] (by decide) (by decide) (by decide),
   parse_register_spec.2.1 ['3', '2'] (by decide) (by decide) (by decide),
   parse_register_spec.2.2 ['x', '5'] (by decide)⟩

/-! ## Two-pass structure lemmas -/

/-- Pass 2 distributes over list append: the bytes of `xs ++ ys` are the
bytes of `xs` followed by those of `ys`, with the first error winning. -/
theorem pass2_append (syms : SymTable) (xs ys : List (List Char)) :
    pass2 syms (xs ++ ys) =
      match pass2 syms xs with
      | .error e => .error e
      | .ok b1 =>
        match pass2 syms ys with
        | .error e => .error e
        | .ok b2 => .ok (b1 ++ b2) := by
  induction xs with
  | nil =>
    simp only [List.nil_append, pass2]
    cases pass2 syms ys <;> simp
  | cons x xs ih =>
    simp only [List.cons_append, pass2, List.append_eq]
    cases compile_line syms x with
    | error e => rfl
    | ok bs =>
      rw [ih]
      cases pass2 syms xs with
      | error e => rfl
      | ok b1 =>
        cases pass2 syms ys with
        | error e => rfl
        | ok b2 => simp

/-- Pass 1 over `xs ++ ys` is pass 1 over `xs` continued, from the
reached offset and symbol table, over `ys`. -/
theorem pass1_append (xs ys : List (List Char)) (addr : Nat) (syms : SymTable) :
    pass1 (xs ++ ys) addr syms =
      match pass1 xs addr syms with
      | (s1, .error e) => (s1, .error e)
      | (s1, .ok (ls1, a1)) =>
        match pass1 ys a1 s1 with
        | (s2, .error e) => (s2, .error e)
        | (s2, .ok (ls2, a2)) => (s2, .ok (ls1 ++ ls2, a2)) := by
  induction xs generalizing addr syms with
  | nil =>
    simp only [List.nil_append, pass1]
    rcases h : pass1 ys addr syms with ⟨s2, r⟩
    cases r with
    | error e => rfl
    | ok p => rcases p with ⟨ls2, a2⟩ ; simp
  | cons x xs ih =>
    simp only [List.cons_append, pass1, List.append_eq]
    by_cases hblank : trim (stripComment x) = []
    · rw [if_pos hblank, if_pos hblank, ih]
    · rw [if_neg hblank, if_neg hblank]
      by_cases hlbl : (trim (stripComment x)).getLast? = some ':'
      · rw [if_pos hlbl, if_pos hlbl, ih]
      · rw [if_neg hlbl, if_neg hlbl]
        cases hest : estimate_instruction_size (trim (stripComment x)) with
        | error e => rfl
        | ok sz =>
          simp only []
          rw [ih]
          rcases h1 : pass1 xs (addr + sz) syms with ⟨s1, r1⟩
          cases r1 with
          | error e => simp
          | ok p1 =>
            rcases p1 with ⟨ls1, a1⟩
            rcases h2 : pass1 ys a1 s1 with ⟨s2, r2⟩
            cases r2 with
            | error e => simp [h2]
            | ok p2 => rcases p2 with ⟨ls2, a2⟩ ; simp [h2]

/-- A successful ADD/SUB/MUL/DIV arm emits exactly 4 bytes. -/
theorem compile_arith_length (op : Nat) (line : List Char) (tokens : List (List Char))
    (bs : List Nat) (h : compile_arith op line tokens = .ok bs) : bs.length = 4 := by
  unfold compile_arith at h
  split at h
  · cases h
  · cases h1 : Assembler.parse_register (tokens.getD 1 []) with
    | error e => rw [h1] at h ; cases h
    | ok r1 =>
      rw [h1] at h
      cases h2 : Assembler.parse_register (tokens.getD 2 []) with
      | error e => rw [h2] at h ; cases h
      | ok r2 =>
        rw [h2] at h
        cases h3 : Assembler.parse_register (tokens.getD 3 []) with
        | error e => rw [h3] at h ; cases h
        | ok r3 =>
          rw [h3] at h
          cases h
          rfl

/-- Pass 2 emits for each line exactly as many bytes as pass 1 estimated
for it: 4 for LOAD and the arithmetic forms, 1 for HLT. -/
theorem compile_line_length (syms : SymTable) (line : List Char) (sz : Nat) (bs : List Nat)
    (hest : estimate_instruction_size line = .ok sz)
    (hcl : compile_line syms line = .ok bs) : bs.length = sz := by
  unfold compile_line at hcl
  unfold estimate_instruction_size at hest
  dsimp only at hcl hest
  split at hcl
  · rename_i heq
    rw [heq] at hest
    injection (show (Except.ok 4 : Except AssemblerError Nat) = Except.ok sz from hest) with hsz
    subst hsz
    split at hcl
    · cases hcl
    · cases h1 : Assembler.parse_register ((split_whitespace line).getD 1 []) with
      | error e => rw [h1] at hcl ; cases hcl
      | ok reg =>
        rw [h1] at hcl
        cases h2 : parse_value syms ((split_whitespace line).getD 2 []) with
        | error e => rw [h2] at hcl ; cases hcl
        | ok v => rw [h2] at hcl ; cases hcl ; rfl
  · rename_i heq
    rw [heq] at hest
    injection (show (Except.ok 4 : Except AssemblerError Nat) = Except.ok sz from hest) with hsz
    subst hsz
    exact compile_arith_length _ _ _ _ hcl
  · rename_i heq
    rw [heq] at hest
    injection (show (Except.ok 4 : Except AssemblerError Nat) = Except.ok sz from hest) with hsz
    subst hsz
    exact compile_arith_length _ _ _ _ hcl
  · rename_i heq
    rw [heq] at hest
    injection (show (Except.ok 4 : Except AssemblerError Nat) = Except.ok sz from hest) with hsz
    subst hsz
    exact compile_arith_length _ _ _ _ hcl
  · rename_i heq
    rw [heq] at hest
    injection (show (Except.ok 4 : Except AssemblerError Nat) = Except.ok sz from hest) with hsz
    subst hsz
    exact compile_arith_length _ _ _ _ hcl
  · rename_i heq
    rw [heq] at hest
    injection (show (Except.ok 1 : Except AssemblerError Nat) = Except.ok sz from hest) with hsz
    subst hsz
    cases hcl
    rfl
  · cases hcl

/-- The offset pass 1 reaches equals the starting offset plus the length
of the bytecode pass 2 emits for the collected lines (with any symbol
table): the size estimates are exact. -/
theorem pass1_addr_of_pass2 (xs : List (List Char)) :
    ∀ (addr : Nat) (syms s1 : SymTable) (ls : List (List Char)) (a1 : Nat),
      pass1 xs addr syms = (s1, .ok (ls, a1)) →
      ∀ (syms2 : SymTable) (bc : List Nat), pass2 syms2 ls = .ok bc →
      a1 = addr + bc.length := by
  induction xs with
  | nil =>
    intro addr syms s1 ls a1 h syms2 bc h2
    simp only [pass1] at h
    rw [Prod.mk.injEq] at h
    obtain ⟨hs, hok⟩ := h
    injection hok with hp
    rw [Prod.mk.injEq] at hp
    obtain ⟨hls, ha⟩ := hp
    subst hls
    subst ha
    simp only [pass2] at h2
    injection h2 with hbc
    subst hbc
    simp
  | cons x xs ih =>
    intro addr syms s1 ls a1 h syms2 bc h2
    simp only [pass1] at h
    by_cases hblank : trim (stripComment x) = []
    · rw [if_pos hblank] at h
      exact ih _ _ _ _ _ h _ _ h2
    · rw [if_neg hblank] at h
      by_cases hlbl : (trim (stripComment x)).getLast? = some ':'
      · rw [if_pos hlbl] at h
        exact ih _ _ _ _ _ h _ _ h2
      · rw [if_neg hlbl] at h
        cases hest : estimate_instruction_size (trim (stripComment x)) with
        | error e =>
          rw [hest] at h
          rw [Prod.mk.injEq] at h
          exact absurd h.2 (by simp)
        | ok sz =>
          rw [hest] at h
          dsimp only at h
          rcases hrec : pass1 xs (addr + sz) syms with ⟨s1x, r⟩
          rw [hrec] at h
          cases r with
          | error e =>
            rw [Prod.mk.injEq] at h
            exact absurd h.2 (by simp)
          | ok p =>
            rcases p with ⟨lsx, ax⟩
            rw [Prod.mk.injEq] at h
            obtain ⟨hs, hok⟩ := h
            injection hok with hp
            rw [Prod.mk.injEq] at hp
            obtain ⟨hls, ha⟩ := hp
            subst hs
            subst ha
            rw [← hls] at h2
            simp only [pass2] at h2
            cases hc : compile_line syms2 (trim (stripComment x)) with
            | error e => rw [hc] at h2 ; cases h2
            | ok bsl =>
              rw [hc] at h2
              cases hp2 : pass2 syms2 lsx with
              | error e => rw [hp2] at h2 ; cases h2
              | ok bcx =>
                rw [hp2] at h2
                injection h2 with hbc
                subst hbc
                have hlen := compile_line_length syms2 _ _ _ hest hc
                have hrec2 := ih _ _ _ _ _ hrec _ _ hp2
                rw [List.length_append, hlen]
                omega

/-- Looking up the key just inserted finds the new value. -/
theorem lookupSym_insert_self (m : SymTable) (k : List Char) (v : Nat) :
    lookupSym (insertSym m k v) k = some v := by
  simp [insertSym, lookupSym]

/-- Inserting one key leaves lookups of other keys unchanged. -/
theorem lookupSym_insert_ne (m : SymTable) (k q : List Char) (v : Nat) (h : k ≠ q) :
    lookupSym (insertSym m k v) q = lookupSym m q := by
  simp [insertSym, lookupSym, h]

/-- If no line of `xs` defines `name`, pass 1 leaves its binding exactly
as it was. -/
theorem pass1_lookup_no_def (name : List Char) (xs : List (List Char)) :
    ∀ (addr : Nat) (syms : SymTable), (∀ l ∈ xs, definesLabel name l = false) →
      lookupSym (pass1 xs addr syms).1 name = lookupSym syms name := by
  induction xs with
  | nil => intro addr syms _ ; rfl
  | cons x xs ih =>
    intro addr syms hno
    have hx : definesLabel name x = false := hno x (List.mem_cons_self x xs)
    have hxs : ∀ l ∈ xs, definesLabel name l = false :=
      fun l hl => hno l (List.mem_cons_of_mem x hl)
    simp only [pass1]
    by_cases hblank : trim (stripComment x) = []
    · rw [if_pos hblank]
      exact ih addr syms hxs
    · rw [if_neg hblank]
      by_cases hlbl : (trim (stripComment x)).getLast? = some ':'
      · rw [if_pos hlbl]
        have hne : trim (trim (stripComment x)).dropLast ≠ name := by
          intro hcontra
          rw [definesLabel] at hx
          simp only [hblank, hlbl, hcontra] at hx
          simp at hx
        rw [ih addr _ hxs, lookupSym_insert_ne _ _ _ _ hne]
      · rw [if_neg hlbl]
        cases hest : estimate_instruction_size (trim (stripComment x)) with
        | error e => rfl
        | ok sz =>
          dsimp only
          rcases hrec : pass1 xs (addr + sz) syms with ⟨s1, r⟩
          have := ih (addr + sz) syms hxs
          rw [hrec] at this
          cases r with
          | error e => exact this
          | ok p => rcases p with ⟨ls, a⟩ ; exact this

/-- Pass 1 never removes a name from the symbol table: a consultable key
stays consultable. -/
theorem pass1_lookup_mono (k : List Char) (xs : List (List Char)) :
    ∀ (addr : Nat) (syms : SymTable), lookupSym syms k ≠ none →
      lookupSym (pass1 xs addr syms).1 k ≠ none := by
  induction xs with
  | nil => intro addr syms h ; exact h
  | cons x xs ih =>
    intro addr syms h
    simp only [pass1]
    by_cases hblank : trim (stripComment x) = []
    · rw [if_pos hblank]
      exact ih addr syms h
    · rw [if_neg hblank]
      by_cases hlbl : (trim (stripComment x)).getLast? = some ':'
      · rw [if_pos hlbl]
        refine ih addr _ ?_
        by_cases hk : trim (trim (stripComment x)).dropLast = k
        · rw [← hk, lookupSym_insert_self]
          simp
        · rw [lookupSym_insert_ne _ _ _ _ hk]
          exact h
      · rw [if_neg hlbl]
        cases hest : estimate_instruction_size (trim (stripComment x)) with
        | error e => exact h
        | ok sz =>
          dsimp only
          rcases hrec : pass1 xs (addr + sz) syms with ⟨s1, r⟩
          have := ih (addr + sz) syms h
          rw [hrec] at this
          cases r with
          | error e => exact this
          | ok p => rcases p with ⟨ls, a⟩ ; exact this

/-- Pass 1 of a single well-formed label line inserts the label at the
current offset, collects no instruction line, and never fails. -/
theorem pass1_label_line (name : List Char)
    (hclean : trim (stripComment (name ++ [':'])) = name ++ [':'])
    (hname : trim name = name) (addr : Nat) (syms : SymTable) :
    pass1 [name ++ [':']] addr syms = (insertSym syms name addr, .ok ([], addr)) := by
  simp only [pass1, hclean]
  rw [if_neg (by simp), if_pos (by rw [List.getLast?_concat]),
    List.dropLast_concat, hname]

/-- Core of label resolution, shared by the forward-reference and the
duplicate-label theorems: compiling `pre ++ [label line] ++ post`
successfully records the label at the emitted length of `pre` and
`parse_value` resolves it to that offset modulo `2^16`. -/
theorem label_resolution_core
    (asm : Assembler) (pre post : List (List Char)) (name : List Char)
    (hclean : trim (stripComment (name ++ [':'])) = name ++ [':'])
    (hname : trim name = name)
    (hpost : ∀ l ∈ post, definesLabel name l = false)
    (asm' : Assembler) (bc : List Nat)
    (hc : compileLines asm (pre ++ [name ++ [':']] ++ post) = (asm', .ok bc)) :
    ∃ (s1 : SymTable) (ls1 ls2 : List (List Char)) (a2 : Nat) (bsPre bsPost : List Nat),
      pass1 pre 0 asm.symbols = (s1, .ok (ls1, bsPre.length)) ∧
      pass1 post bsPre.length (insertSym s1 name bsPre.length) =
        (asm'.symbols, .ok (ls2, a2)) ∧
      pass2 asm'.symbols ls1 = .ok bsPre ∧
      pass2 asm'.symbols ls2 = .ok bsPost ∧
      bc = padTo32 (bsPre ++ bsPost) ∧
      lookupSym asm'.symbols name = some bsPre.length ∧
      parse_value asm'.symbols name = .ok (bsPre.length % 2 ^ 16) := by
  unfold compileLines at hc
  rw [List.append_assoc] at hc
  rcases hp1 : pass1 (pre ++ ([name ++ [':']] ++ post)) 0 asm.symbols with ⟨syms, r⟩
  rw [hp1] at hc
  cases r with
  | error e =>
    dsimp only at hc
    rw [Prod.mk.injEq] at hc
    exact absurd hc.2 (by simp)
  | ok p =>
    rcases p with ⟨ls, aEnd⟩
    dsimp only at hc
    rw [pass1_append] at hp1
    rcases h1 : pass1 pre 0 asm.symbols with ⟨s1, r1⟩
    rw [h1] at hp1
    cases r1 with
    | error e =>
      dsimp only at hp1
      rw [Prod.mk.injEq] at hp1
      exact absurd hp1.2 (by simp)
    | ok p1 =>
      rcases p1 with ⟨ls1, a1⟩
      dsimp only at hp1
      have hLpost := pass1_append [name ++ [':']] post a1 s1
      rw [pass1_label_line name hclean hname a1 s1] at hLpost
      dsimp only at hLpost
      rcases h2 : pass1 post a1 (insertSym s1 name a1) with ⟨s2, r2⟩
      rw [h2] at hLpost
      cases r2 with
      | error e =>
        rw [hLpost] at hp1
        rw [Prod.mk.injEq] at hp1
        exact absurd hp1.2 (by simp)
      | ok p2 =>
        rcases p2 with ⟨ls2, a2⟩
        rw [hLpost] at hp1
        dsimp only at hp1
        rw [Prod.mk.injEq] at hp1
        obtain ⟨hsyms, hok⟩ := hp1
        injection hok with hok
        rw [Prod.mk.injEq] at hok
        obtain ⟨hls, ha⟩ := hok
        subst hsyms
        subst hls
        subst ha
        rw [List.nil_append] at hc
        rcases hbc0 : pass2 s2 (ls1 ++ ls2) with he | bc0
        · rw [hbc0] at hc
          rw [Prod.mk.injEq] at hc
          exact absurd hc.2 (by simp)
        · rw [hbc0] at hc
          dsimp only at hc
          rw [Prod.mk.injEq] at hc
          obtain ⟨hasm, hbc⟩ := hc
          injection hbc with hbc
          rw [pass2_append] at hbc0
          rcases hpre2 : pass2 s2 ls1 with he | bsPre
          · rw [hpre2] at hbc0 ; cases hbc0
          · rw [hpre2] at hbc0
            dsimp only at hbc0
            rcases hpost2 : pass2 s2 ls2 with he | bsPost
            · rw [hpost2] at hbc0 ; cases hbc0
            · rw [hpost2] at hbc0
              dsimp only at hbc0
              injection hbc0 with hbc0
              have ha1 : a1 = bsPre.length := by
                have := pass1_addr_of_pass2 pre 0 asm.symbols s1 ls1 a1 h1 s2 bsPre hpre2
                omega
              have hlook : lookupSym s2 name = some a1 := by
                have hpres := pass1_lookup_no_def name post a1 (insertSym s1 name a1) hpost
                rw [h2] at hpres
                rw [hpres, lookupSym_insert_self]
              subst ha1
              have hsy : asm'.symbols = s2 := by rw [← hasm]
              refine ⟨s1, ls1, ls2, a2, bsPre, bsPost, rfl, ?_, ?_, ?_, ?_, ?_, ?_⟩
              · rw [hsy]
                exact h2
              · rw [hsy]
                exact hpre2
              · rw [hsy]
                exact hpost2
              · rw [← hbc, hbc0]
              · rw [hsy]
                exact hlook
              · rw [hsy]
                unfold parse_value
                rw [hlook]
  

/-- Pass 1 over `n` copies of the 4-byte filler line advances the offset
by `4 * n` and keeps them all as instruction lines. -/
theorem pass1_replicate_fill (n : Nat) :
    ∀ (addr : Nat) (syms : SymTable),
      pass1 (List.replicate n ("LOAD r0 0".toList)) addr syms =
        (syms, .ok (List.replicate n ("LOAD r0 0".toList), addr + 4 * n)) := by
  induction n with
  | zero => intro addr syms ; simp [pass1]
  | succ n ih =>
    intro addr syms
    rw [List.replicate_succ]
    simp only [pass1]
    rw [if_neg (by decide), if_neg (by decide),
      show estimate_instruction_size (trim (stripComment ("LOAD r0 0".toList))) = .ok 4 from by decide]
    dsimp only
    rw [ih (addr + 4) syms]
    have harith : addr + 4 + 4 * n = addr + 4 * (n + 1) := by omega
    rw [harith]
    dsimp only
    rw [show trim (stripComment ("LOAD r0 0".toList)) = "LOAD r0 0".toList from by decide,
      ← List.replicate_succ]

/-- Pass 2 succeeds on any number of copies of the filler line. -/
theorem pass2_replicate_fill (n : Nat) :
    ∃ bs : List Nat,
      pass2 [(("L".toList : List Char), 65536)] (List.replicate n ("LOAD r0 0".toList)) = .ok bs := by
  induction n with
  | zero => exact ⟨[], by simp [pass2]⟩
  | succ n ih =>
    obtain ⟨bs, hbs⟩ := ih
    refine ⟨[1, 0, 0, 0] ++ bs, ?_⟩
    rw [List.replicate_succ]
    simp only [pass2]
    rw [show compile_line [(("L".toList : List Char), 65536)] ("LOAD r0 0".toList) = .ok [1, 0, 0, 0] from by decide]
    dsimp only
    rw [hbs]

/-- `compile`, assembled from successful runs of its two passes. -/
theorem compileLines_eq_of (a : Assembler) (symsIn : SymTable)
    (ha : a.symbols = symsIn) (lines ls : List (List Char))
    (syms : SymTable) (aEnd : Nat) (bc : List Nat)
    (h1 : pass1 lines 0 symsIn = (syms, .ok (ls, aEnd)))
    (h2 : pass2 syms ls = .ok bc) :
    compileLines a lines = (⟨syms⟩, .ok (padTo32 bc)) := by
  unfold compileLines
  rw [ha, h1]
  dsimp only
  rw [h2]

/-- Pass 1 of 16383 filler lines followed by the label line `L:`,
starting at offset 4: the label lands at byte offset 65536. -/
theorem ce_mid :
    pass1 (List.replicate 16383 ("LOAD r0 0".toList) ++ ["L:".toList]) 4 ([] : SymTable) =
    ([(("L".toList : List Char), 65536)],
      .ok (List.replicate 16383 ("LOAD r0 0".toList), 65536)) := by
  have hp_fill := pass1_replicate_fill 16383 4 ([] : SymTable)
  rw [show 4 + 4 * 16383 = 65536 from by norm_num] at hp_fill
  have hp_lbl : pass1 ["L:".toList] 65536 ([] : SymTable) =
      ([(("L".toList : List Char), 65536)], .ok ([], 65536)) := by decide
  have hsplit2 := pass1_append (List.replicate 16383 ("LOAD r0 0".toList)) ["L:".toList]
    4 ([] : SymTable)
  rw [hp_fill] at hsplit2
  simp only [] at hsplit2
  rw [hp_lbl] at hsplit2
  simp only [] at hsplit2
  rw [List.append_nil] at hsplit2
  exact hsplit2

/-- One pass-1 step on an instruction line at the head of the source. -/
theorem pass1_cons_instr (x x' : List Char) (xs : List (List Char)) (addr : Nat)
    (syms : SymTable) (htrim : trim (stripComment x) = x')
    (hblank : ¬ x' = []) (hlbl : ¬ x'.getLast? = some ':')
    (sz : Nat) (hest : estimate_instruction_size x' = .ok sz)
    (s' : SymTable) (ls : List (List Char)) (a' : Nat)
    (hrest : pass1 xs (addr + sz) syms = (s', .ok (ls, a'))) :
    pass1 (x :: xs) addr syms = (s', .ok (x' :: ls, a')) := by
  simp only [pass1, htrim]
  rw [if_neg hblank, if_neg hlbl, hest]
  dsimp only
  rw [hrest]

/-- One pass-2 step on a successfully compiled head line. -/
theorem pass2_cons_ok (syms : SymTable) (x : List Char) (xs : List (List Char))
    (bs bc : List Nat) (hx : compile_line syms x = .ok bs) (hxs : pass2 syms xs = .ok bc) :
    pass2 syms (x :: xs) = .ok (bs ++ bc) := by
  simp only [pass2]
  rw [hx]
  dsimp only
  rw [hxs]

/-- Pass 1 of the 16385-line truncation source: `L` is recorded at byte
offset 65536. -/
theorem ce_pass1 :
    pass1 ("LOAD r0 L".toList ::
        (List.replicate 16383 ("LOAD r0 0".toList) ++ ["L:".toList])) 0 ([] : SymTable) =
    ([(("L".toList : List Char), 65536)],
      .ok ("LOAD r0 L".toList :: List.replicate 16383 ("LOAD r0 0".toList), 65536)) := by
  exact pass1_cons_instr _ _ _ 0 _ (by decide) (by decide) (by decide) 4 (by decide)
    _ _ _ ce_mid

/-- Pass 2 of the truncation source emits `[1, 0, 0, 0]` for the
referencing line — the operand resolved to `65536 % 2^16 = 0`. -/
theorem ce_pass2 :
    ∃ bs : List Nat,
      pass2 [(("L".toList : List Char), 65536)]
        ("LOAD r0 L".toList :: List.replicate 16383 ("LOAD r0 0".toList)) =
      .ok ([1, 0, 0, 0] ++ bs) := by
  obtain ⟨bs, hbs⟩ := pass2_replicate_fill 16383
  exact ⟨bs, pass2_cons_ok _ _ _ [1, 0, 0, 0] bs (by decide) hbs⟩

/-- C8 counterexample: a source whose label `L` is defined at byte offset
65536 (one referencing `LOAD r0 L`, 16383 filler `LOAD r0 0` lines, then
`L:`). Compile succeeds, the symbol table records `L` at 65536, but the
emitted operand is `65536 % 2^16 = 0` — `parse_value` truncates the
offset with `as u16`, so the operand is NOT the byte offset at which the
label falls. -/
theorem label_offset_truncation_counterexample :
    ∃ (asm' : Assembler) (bc : List Nat),
      compileLines Assembler.new
        ("LOAD r0 L".toList ::
          (List.replicate 16383 ("LOAD r0 0".toList) ++ ["L:".toList])) =
        (asm', .ok bc) ∧
      lookupSym asm'.symbols ("L".toList) = some 65536 ∧
      parse_value asm'.symbols ("L".toList) = .ok 0 ∧
      bc.take 4 = [1, 0, 0, 0] ∧
      (0 : Nat) ≠ 65536 := by
  obtain ⟨bsFill, h2⟩ := ce_pass2
  have hcomp := compileLines_eq_of Assembler.new [] rfl _ _ _ _ _ ce_pass1 h2
  refine ⟨⟨[(("L".toList : List Char), 65536)]⟩, padTo32 ([1, 0, 0, 0] ++ bsFill),
    hcomp, by decide, by decide, ?_, by decide⟩
  rw [padTo32, List.append_assoc]
  exact List.take_left [1, 0, 0, 0]
    (bsFill ++ List.replicate (32 - ([1, 0, 0, 0] ++ bsFill).length) 0)


/-- One pass-1 step on a well-formed label line at the head of the
source: insert the label at the current offset and continue. -/
theorem pass1_cons_label (x name : List Char) (xs : List (List Char)) (addr : Nat)
    (syms : SymTable) (htrim : trim (stripComment x) = name ++ [':'])
    (hname : trim name = name)
    (res : SymTable × Except AssemblerError (List (List Char) × Nat))
    (hrest : pass1 xs addr (insertSym syms name addr) = res) :
    pass1 (x :: xs) addr syms = res := by
  simp only [pass1, htrim]
  rw [if_neg (by simp), if_pos (by rw [List.getLast?_concat]),
    List.dropLast_concat, hname]
  exact hrest

/-- Pass 1 of 16383 filler lines followed by the label line for `L`,
starting at offset 4 over any symbol table: `L` is (re)inserted at byte
offset 65536. -/
theorem ce2_mid (syms : SymTable) :
    pass1 (List.replicate 16383 ("LOAD r0 0".toList) ++ ["L".toList ++ [':']]) 4 syms =
    (insertSym syms ("L".toList) 65536,
      .ok (List.replicate 16383 ("LOAD r0 0".toList), 65536)) := by
  have hp_fill := pass1_replicate_fill 16383 4 syms
  rw [show 4 + 4 * 16383 = 65536 from by norm_num] at hp_fill
  have hp_lbl := pass1_label_line ("L".toList) (by decide) (by decide) 65536 syms
  have hsplit := pass1_append (List.replicate 16383 ("LOAD r0 0".toList))
    ["L".toList ++ [':']] 4 syms
  rw [hp_fill] at hsplit
  simp only [] at hsplit
  rw [hp_lbl] at hsplit
  simp only [] at hsplit
  rw [List.append_nil] at hsplit
  exact hsplit

/-- Pass 1 of the duplicate-label source — `L:`, a referencing
`LOAD r0 L`, 16383 filler lines, then `L:` again: the first definition
records `L` at 0, the second overwrites it with byte offset 65536. -/
theorem ce2_pass1 :
    pass1 (("L".toList ++ [':']) :: "LOAD r0 L".toList ::
        (List.replicate 16383 ("LOAD r0 0".toList) ++ ["L".toList ++ [':']]))
      0 ([] : SymTable) =
    ([(("L".toList : List Char), 65536), (("L".toList : List Char), 0)],
      .ok ("LOAD r0 L".toList :: List.replicate 16383 ("LOAD r0 0".toList), 65536)) := by
  refine pass1_cons_label _ ("L".toList) _ 0 [] (by decide) (by decide) _ ?_
  refine pass1_cons_instr _ _ _ 0 _ (by decide) (by decide) (by decide) 4 (by decide)
    _ _ _ ?_
  exact ce2_mid (insertSym [] ("L".toList) 0)

/-- Pass 2 succeeds on any number of filler lines under the
duplicate-label symbol table. -/
theorem pass2_replicate_fill2 (n : Nat) :
    ∃ bs : List Nat,
      pass2 [(("L".toList : List Char), 65536), (("L".toList : List Char), 0)]
        (List.replicate n ("LOAD r0 0".toList)) = .ok bs := by
  induction n with
  | zero => exact ⟨[], by simp [pass2]⟩
  | succ n ih =>
    obtain ⟨bs, hbs⟩ := ih
    rw [List.replicate_succ]
    exact ⟨[1, 0, 0, 0] ++ bs, pass2_cons_ok _ _ _ [1, 0, 0, 0] bs (by decide) hbs⟩

/-- Pass 2 of the duplicate-label source's instruction lines: the
referencing line emits `[1, 0, 0, 0]` — the most recent binding of `L`
(65536) resolved through `as u16` to operand 0. -/
theorem ce2_pass2 :
    ∃ bs : List Nat,
      pass2 [(("L".toList : List Char), 65536), (("L".toList : List Char), 0)]
        ("LOAD r0 L".toList :: List.replicate 16383 ("LOAD r0 0".toList)) =
      .ok ([1, 0, 0, 0] ++ bs) := by
  obtain ⟨bs, hbs⟩ := pass2_replicate_fill2 16383
  exact ⟨bs, pass2_cons_ok _ _ _ [1, 0, 0, 0] bs (by decide) hbs⟩

/-- C10 counterexample: a source defining `L` twice — at offset 0 and,
after 16384 four-byte instructions, at offset 65536. Compile succeeds and
the later definition overwrites the earlier (the table maps `L` to
65536), but the operand reference `LOAD r0 L` resolves through
`*label_value as u16` to `65536 % 2^16 = 0`, NOT to the byte offset of
the last definition. -/
theorem duplicate_label_truncation_counterexample :
    ∃ (asm' : Assembler) (bc : List Nat),
      compileLines Assembler.new
        (("L".toList ++ [':']) :: "LOAD r0 L".toList ::
          (List.replicate 16383 ("LOAD r0 0".toList) ++ ["L".toList ++ [':']])) =
        (asm', .ok bc) ∧
      lookupSym asm'.symbols ("L".toList) = some 65536 ∧
      parse_value asm'.symbols ("L".toList) = .ok 0 ∧
      bc.take 4 = [1, 0, 0, 0] ∧
      (0 : Nat) ≠ 65536 := by
  obtain ⟨bsFill, h2⟩ := ce2_pass2
  have hcomp := compileLines_eq_of Assembler.new [] rfl _ _ _ _ _ ce2_pass1 h2
  refine ⟨⟨[(("L".toList : List Char), 65536), (("L".toList : List Char), 0)]⟩,
    padTo32 ([1, 0, 0, 0] ++ bsFill), hcomp, by decide, by decide, ?_, by decide⟩
  rw [padTo32, List.append_assoc]
  exact List.take_left [1, 0, 0, 0]
    (bsFill ++ List.replicate (32 - ([1, 0, 0, 0] ++ bsFill).length) 0)

/-- C8 (amended): for a source (given as its lines) of the form
`pre ++ [label line for name] ++ post` whose compile succeeds, pass 1 has
recorded `name` at the cumulative offset of the instructions in `pre`,
which equals the length of the bytecode emitted for `pre` — the byte
offset at which the label's position falls in the emitted buffer. Because
pass 1 completes before pass 2 starts, `parse_value` resolves the operand
token `name` in EVERY instruction line, including those before the label
line (forward references), to that offset — truncated to 16 bits
(`*label_value as u16`), which is exact whenever the offset is below
65536. -/
theorem forward_label_resolution
    (asm : Assembler) (pre post : List (List Char)) (name : List Char)
    (hclean : trim (stripComment (name ++ [':'])) = name ++ [':'])
    (hname : trim name = name)
    (hpost : ∀ l ∈ post, definesLabel name l = false)
    (asm' : Assembler) (bc : List Nat)
    (hc : compileLines asm (pre ++ [name ++ [':']] ++ post) = (asm', .ok bc)) :
    ∃ (s1 : SymTable) (ls1 ls2 : List (List Char)) (a2 : Nat) (bsPre bsPost : List Nat),
      pass1 pre 0 asm.symbols = (s1, .ok (ls1, bsPre.length)) ∧
      pass1 post bsPre.length (insertSym s1 name bsPre.length) =
        (asm'.symbols, .ok (ls2, a2)) ∧
      pass2 asm'.symbols ls1 = .ok bsPre ∧
      pass2 asm'.symbols ls2 = .ok bsPost ∧
      bc = padTo32 (bsPre ++ bsPost) ∧
      lookupSym asm'.symbols name = some bsPre.length ∧
      parse_value asm'.symbols name = .ok (bsPre.length % 2 ^ 16) :=
  label_resolution_core asm pre post name hclean hname hpost asm' bc hc

/-- C8 witness: the amended theorem at the source `LOAD r0 foo` / `foo:` /
`HLT`, where the forward reference `foo` resolves to offset 4. -/
theorem forward_label_resolution_witness :
    ∃ (s1 : SymTable) (ls1 ls2 : List (List Char)) (a2 : Nat) (bsPre bsPost : List Nat),
      pass1 ["LOAD r0 foo".toList] 0 Assembler.new.symbols = (s1, .ok (ls1, bsPre.length)) ∧
      pass1 ["HLT".toList] bsPre.length (insertSym s1 ("foo".toList) bsPre.length) =
        ((⟨[(("foo".toList : List Char), 4)]⟩ : Assembler).symbols, .ok (ls2, a2)) ∧
      pass2 (⟨[(("foo".toList : List Char), 4)]⟩ : Assembler).symbols ls1 = .ok bsPre ∧
      pass2 (⟨[(("foo".toList : List Char), 4)]⟩ : Assembler).symbols ls2 = .ok bsPost ∧
      padTo32 [1, 0, 0, 4, 0] = padTo32 (bsPre ++ bsPost) ∧
      lookupSym (⟨[(("foo".toList : List Char), 4)]⟩ : Assembler).symbols ("foo".toList) =
        some bsPre.length ∧
      parse_value (⟨[(("foo".toList : List Char), 4)]⟩ : Assembler).symbols ("foo".toList) =
        .ok (bsPre.length % 2 ^ 16) :=
  forward_label_resolution Assembler.new ["LOAD r0 foo".toList] ["HLT".toList]
    ("foo".toList) (by decide) (by decide) (by decide)
    ⟨[(("foo".toList : List Char), 4)]⟩ (padTo32 [1, 0, 0, 4, 0]) (by decide)

/-- C9: the symbol table starts empty at construction; during pass 1 a
label name present in the table stays present (inserts only shadow, never
remove); and a name present before a `compile` call is still present and
consultable after it, whether the compile succeeded or failed. -/
theorem symbol_table_persistence :
    Assembler.new.symbols = [] ∧
    (∀ (xs : List (List Char)) (addr : Nat) (syms : SymTable) (k : List Char),
      lookupSym syms k ≠ none → lookupSym (pass1 xs addr syms).1 k ≠ none) ∧
    (∀ (a : Assembler) (src : List Char) (k : List Char),
      lookupSym a.symbols k ≠ none → lookupSym (a.compile src).1.symbols k ≠ none) := by
  refine ⟨rfl, ?_, ?_⟩
  · intro xs addr syms k h
    exact pass1_lookup_mono k xs addr syms h
  · intro a src k h
    have hm := pass1_lookup_mono k (rustLines src) 0 a.symbols h
    unfold Assembler.compile compileLines
    rcases hp : pass1 (rustLines src) 0 a.symbols with ⟨syms, r⟩
    rw [hp] at hm
    dsimp only at hm
    cases r with
    | error e => exact hm
    | ok p =>
      rcases p with ⟨ls, aEnd⟩
      dsimp only
      cases pass2 syms ls with
      | error e => exact hm
      | ok bc => exact hm

/-- C9 witness: a symbol recorded before a compile call is still
consultable after compiling `HLT` on the same assembler. -/
theorem symbol_table_persistence_witness :
    lookupSym ((⟨[((['a'] : List Char), 0)]⟩ : Assembler).compile ("HLT".toList)).1.symbols
      ['a'] ≠ none :=
  symbol_table_persistence.2.2 ⟨[((['a'] : List Char), 0)]⟩ ("HLT".toList) ['a'] (by decide)

/-- C10 (amended): a duplicate label definition does not make compile
fail — a label line always just inserts and continues (last conjunct) —
and the later definition overwrites the earlier: for a successful compile
of `pre ++ [L] ++ mid ++ [L] ++ post` (L the label line for `name`,
`post` free of further definitions of `name`), the symbol table maps
`name` to the byte offset of the LAST definition, the length of the
bytecode emitted for `pre ++ [L] ++ mid`, and `parse_value` resolves
every operand reference to that offset truncated to 16 bits
(`*label_value as u16`) — exact whenever the offset is below 65536. -/
theorem duplicate_label_last_wins
    (asm : Assembler) (pre mid post : List (List Char)) (name : List Char)
    (hclean : trim (stripComment (name ++ [':'])) = name ++ [':'])
    (hname : trim name = name)
    (hpost : ∀ l ∈ post, definesLabel name l = false)
    (asm' : Assembler) (bc : List Nat)
    (hc : compileLines asm
      (pre ++ [name ++ [':']] ++ mid ++ [name ++ [':']] ++ post) = (asm', .ok bc)) :
    (∃ (s1 : SymTable) (ls1 ls2 : List (List Char)) (a2 : Nat)
        (bsBeforeLast bsPost : List Nat),
      pass1 (pre ++ [name ++ [':']] ++ mid) 0 asm.symbols =
        (s1, .ok (ls1, bsBeforeLast.length)) ∧
      pass1 post bsBeforeLast.length (insertSym s1 name bsBeforeLast.length) =
        (asm'.symbols, .ok (ls2, a2)) ∧
      pass2 asm'.symbols ls1 = .ok bsBeforeLast ∧
      pass2 asm'.symbols ls2 = .ok bsPost ∧
      bc = padTo32 (bsBeforeLast ++ bsPost) ∧
      lookupSym asm'.symbols name = some bsBeforeLast.length ∧
      parse_value asm'.symbols name = .ok (bsBeforeLast.length % 2 ^ 16)) ∧
    (∀ (addr : Nat) (syms : SymTable),
      pass1 [name ++ [':']] addr syms = (insertSym syms name addr, .ok ([], addr))) :=
  ⟨label_resolution_core asm (pre ++ [name ++ [':']] ++ mid) post name
      hclean hname hpost asm' bc hc,
   fun addr syms => pass1_label_line name hclean hname addr syms⟩

/-- C10 witness: the source `a:` / `HLT` / `a:` compiles, and `a` resolves
to offset 1, the position of the second (last) definition. -/
theorem duplicate_label_last_wins_witness :
    (∃ (s1 : SymTable) (ls1 ls2 : List (List Char)) (a2 : Nat)
        (bsBeforeLast bsPost : List Nat),
      pass1 (([] : List (List Char)) ++ ["a".toList ++ [':']] ++ ["HLT".toList]) 0
        Assembler.new.symbols = (s1, .ok (ls1, bsBeforeLast.length)) ∧
      pass1 ([] : List (List Char)) bsBeforeLast.length
        (insertSym s1 ("a".toList) bsBeforeLast.length) =
        ((⟨[(("a".toList : List Char), 1), (("a".toList : List Char), 0)]⟩ :
          Assembler).symbols, .ok (ls2, a2)) ∧
      pass2 (⟨[(("a".toList : List Char), 1), (("a".toList : List Char), 0)]⟩ :
        Assembler).symbols ls1 = .ok bsBeforeLast ∧
      pass2 (⟨[(("a".toList : List Char), 1), (("a".toList : List Char), 0)]⟩ :
        Assembler).symbols ls2 = .ok bsPost ∧
      padTo32 [0] = padTo32 (bsBeforeLast ++ bsPost) ∧
      lookupSym (⟨[(("a".toList : List Char), 1), (("a".toList : List Char), 0)]⟩ :
        Assembler).symbols ("a".toList) = some bsBeforeLast.length ∧
      parse_value (⟨[(("a".toList : List Char), 1), (("a".toList : List Char), 0)]⟩ :
        Assembler).symbols ("a".toList) = .ok (bsBeforeLast.length % 2 ^ 16)) ∧
    (∀ (addr : Nat) (syms : SymTable),
      pass1 ["a".toList ++ [':']] addr syms =
        (insertSym syms ("a".toList) addr, .ok ([], addr))) :=
  duplicate_label_last_wins Assembler.new [] ["HLT".toList] [] ("a".toList)
    (by decide) (by decide) (by decide)
    ⟨[(("a".toList : List Char), 1), (("a".toList : List Char), 0)]⟩
    (padTo32 [0]) (by decide)

end Iridium
